import Mathlib

/-!
Verification development for the audio speaker-separation tool (src/app.py).

The Python program is shallowly embedded here:
- bytes are lists of naturals (each byte below 256),
- the SQLite database is a pair of row lists (`conversations`, `turns`);
  an INSERT hitting the PRIMARY KEY / UNIQUE constraints returns a
  `DBError.constraintViolation` (sqlite3.IntegrityError),
- the on-disk storage tree is a list of (path, bytes) files plus a list of
  directories; paths are lists of components (Python joins them with a slash),
- the base64 module and the decimal zero-padded rendering used for segment
  filenames are implemented concretely,
- the external collaborators (AssemblyAI transcription, pydub codec,
  hashlib.sha256) are black-box function parameters, as the spec treats them.
-/

namespace AudioApp

/-- A byte string: each element is meant to be below 256. -/
abbrev Bytes := List Nat

/-! ### Base64 (Python base64.b64encode / b64decode, standard alphabet) -/

/-- Map a 6-bit value to its base64 alphabet code point. -/
def sextetToChar (s : Nat) : Nat :=
  if s < 26 then 65 + s
  else if s < 52 then 71 + s
  else if s < 62 then s - 4
  else if s = 62 then 43
  else 47

/-- Map a base64 alphabet code point back to its 6-bit value. -/
def charToSextet (c : Nat) : Nat :=
  if 65 ≤ c ∧ c ≤ 90 then c - 65
  else if 97 ≤ c ∧ c ≤ 122 then c - 71
  else if 48 ≤ c ∧ c ≤ 57 then c + 4
  else if c = 43 then 62
  else 63

/-- Pack bytes into 6-bit groups, three bytes at a time (big-endian). -/
def b64packSextets : Bytes → List Nat
  | [] => []
  | [a] => [a / 4, (a % 4) * 16]
  | [a, b] => [a / 4, (a % 4) * 16 + b / 16, (b % 16) * 4]
  | a :: b :: c :: rest =>
      (a / 4) :: ((a % 4) * 16 + b / 16) :: ((b % 16) * 4 + c / 64) :: (c % 64) ::
        b64packSextets rest

/-- The padding characters appended by b64encode; 61 is the code of the
padding character. -/
def b64padding (len : Nat) : List Nat :=
  match len % 3 with
  | 1 => [61, 61]
  | 2 => [61]
  | _ => []

/-- Python base64.b64encode on a byte string, as code points. -/
def b64encode (bs : Bytes) : List Nat :=
  (b64packSextets bs).map sextetToChar ++ b64padding bs.length

/-- Unpack 6-bit groups back into bytes, four groups at a time. -/
def b64unpackSextets : List Nat → Bytes
  | s1 :: s2 :: s3 :: s4 :: rest =>
      (s1 * 4 + s2 / 16) :: ((s2 % 16) * 16 + s3 / 4) :: ((s3 % 4) * 64 + s4) ::
        b64unpackSextets rest
  | [s1, s2] => [s1 * 4 + s2 / 16]
  | [s1, s2, s3] => [s1 * 4 + s2 / 16, (s2 % 16) * 16 + s3 / 4]
  | _ => []

/-- Python base64.b64decode on the output alphabet: drop padding, then
unpack the sextets. -/
def b64decode (cs : List Nat) : Bytes :=
  b64unpackSextets ((cs.filter (fun c => c ≠ 61)).map charToSextet)

/-! ### Decimal rendering: the zero-padded turn number in segment filenames -/

/-- The decimal digit character for a value below ten. -/
def digitChar (r : Nat) : Char :=
  match r with
  | 0 => '0' | 1 => '1' | 2 => '2' | 3 => '3' | 4 => '4'
  | 5 => '5' | 6 => '6' | 7 => '7' | 8 => '8' | _ => '9'

/-- Numeric value of a decimal digit character. -/
def digitVal (c : Char) : Nat := c.toNat - 48

/-- Decimal digits, least significant first, with a structural fuel so the
definition reduces inside the kernel; empty for zero. -/
def natDigitsRevGo : Nat → Nat → List Char
  | _, 0 => []
  | 0, _ + 1 => []
  | fuel + 1, n + 1 => digitChar ((n + 1) % 10) :: natDigitsRevGo fuel ((n + 1) / 10)

/-- Decimal digits of a number, least significant first; empty for zero. -/
def natDigitsRev (n : Nat) : List Char := natDigitsRevGo n n

/-- Decimal digits, most significant first, as Python str renders an int. -/
def natDigits (n : Nat) : List Char :=
  match n with
  | 0 => ['0']
  | _ => (natDigitsRev n).reverse

/-- Zero-pad to width three: the Python format spec 03d. -/
def pad3 (n : Nat) : List Char :=
  List.replicate (3 - (natDigits n).length) '0' ++ natDigits n

/-- Value of a most-significant-first decimal digit string. -/
def digitsVal (l : List Char) : Nat :=
  l.foldl (fun a c => a * 10 + digitVal c) 0

/-! ### Segment filenames -/

/-- Python str.lower, restricted to the per-character lowering that matters
for the ASCII speaker labels the collaborator produces. -/
def lowerStr (s : String) : String := String.mk (s.data.map Char.toLower)

/-- The derived filename of a turn segment. -/
def segFilename (speaker : String) (number : Nat) (fmt : String) : String :=
  lowerStr speaker ++ "_" ++ String.mk (pad3 number) ++ "." ++ fmt

/-! ### File store (the data/audio_storage tree, rooted at STORAGE_DIR) -/

/-- A path under STORAGE_DIR, as its list of components. -/
abbrev DirPath := List String

structure FS where
  files : List (DirPath × Bytes)
  dirs : List DirPath
deriving DecidableEq

/-- open(path, wb).write: later writes shadow earlier ones. -/
def fsWrite (fs : FS) (p : DirPath) (content : Bytes) : FS :=
  { fs with files := (p, content) :: fs.files }

/-- open(path, rb).read, none when the file does not exist. -/
def fsRead (fs : FS) (p : DirPath) : Option Bytes :=
  (fs.files.find? (fun e => e.1 == p)).map (fun e => e.2)

/-- Path.mkdir with exist_ok. -/
def fsMkdir (fs : FS) (p : DirPath) : FS :=
  if p ∈ fs.dirs then fs else { fs with dirs := p :: fs.dirs }

/-- shutil.rmtree: removes the directory and everything below it. -/
def fsRmTree (fs : FS) (p : DirPath) : FS :=
  { files := fs.files.filter (fun e => !(p.isPrefixOf e.1)),
    dirs := fs.dirs.filter (fun d => !(p.isPrefixOf d)) }

/-! ### Database (data/conversations.db; schema from init_database) -/

structure ConvRow where
  id : String
  fingerprint : String
  filename : String
  format : String
  duration : Rat
  speakers : Int
  turns : Int
  processed_at : String
  storage_path : String
  last_viewed : String
deriving DecidableEq

structure TurnRow where
  id : String
  conversation_id : String
  number : Int
  speaker : String
  text : String
  start_ms : Int
  end_ms : Int
  audio_path : DirPath
deriving DecidableEq

structure DB where
  conversations : List ConvRow
  turns : List TurnRow
deriving DecidableEq

/-- sqlite3.IntegrityError raised by an INSERT that hits the PRIMARY KEY or
the UNIQUE fingerprint constraint. -/
inductive DBError where
  | constraintViolation
deriving DecidableEq

structure AppState where
  db : DB
  fs : FS
deriving DecidableEq

/-- SELECT ... FROM conversations WHERE fingerprint = ? (fetchone). -/
def find_existing_conversation (db : DB) (fp : String) :
    Option (String × String × String × Int × Rat) :=
  (db.conversations.find? (fun c => c.fingerprint == fp)).map
    (fun c => (c.id, c.filename, c.processed_at, c.turns, c.duration))

/-- INSERT INTO conversations; the id column is the PRIMARY KEY and
fingerprint is UNIQUE, so a duplicate raises. -/
def save_conversation (db : DB) (row : ConvRow) : Except DBError DB :=
  if db.conversations.any (fun c => c.id == row.id || c.fingerprint == row.fingerprint)
  then .error .constraintViolation
  else .ok { db with conversations := db.conversations ++ [row] }

/-- UPDATE conversations SET last_viewed = ? WHERE id = ?. -/
def update_last_viewed (db : DB) (cid newTime : String) : Except DBError DB :=
  .ok { db with
    conversations := db.conversations.map (fun c =>
      if c.id == cid then { c with last_viewed := newTime } else c) }

/-- INSERT INTO turns; the id column is the PRIMARY KEY. -/
def save_turn (db : DB) (row : TurnRow) : Except DBError DB :=
  if db.turns.any (fun t => t.id == row.id) then .error .constraintViolation
  else .ok { db with turns := db.turns ++ [row] }

/-- One entry of the list load_conversation_turns builds. -/
structure LoadedTurn where
  number : Int
  speaker : String
  text : String
  startSec : Rat
  endSec : Rat
  audio_b64 : List Nat
deriving DecidableEq

/-- Python true division of a millisecond count by 1000. -/
def msToSec (x : Int) : Rat := mkRat x 1000

/-- The ORDER BY number comparison. -/
def byNumber (a b : TurnRow) : Prop := a.number ≤ b.number

instance : DecidableRel byNumber := fun a b => Int.decLe a.number b.number

instance : IsTotal TurnRow byNumber := ⟨fun a b => Int.le_total a.number b.number⟩

instance : IsTrans TurnRow byNumber := ⟨fun _ _ _ h1 h2 => le_trans h1 h2⟩

/-- The loop body of load_conversation_turns: skip the row when its segment
file is gone, otherwise build the display entry with the base64 content. -/
def loadRow (fs : FS) (r : TurnRow) : Option LoadedTurn :=
  match fsRead fs r.audio_path with
  | none => none
  | some content => some
      { number := r.number, speaker := r.speaker, text := r.text,
        startSec := msToSec r.start_ms, endSec := msToSec r.end_ms,
        audio_b64 := b64encode content }

/-- SELECT the conversation turn rows ORDER BY number, then keep only the
rows whose segment file exists on disk, returning its base64 content. -/
def load_conversation_turns (s : AppState) (cid : String) : List LoadedTurn :=
  ((s.db.turns.filter (fun t => t.conversation_id == cid)).insertionSort
      byNumber).filterMap (loadRow s.fs)

/-- The display entry a row yields when its file exists. -/
def renderTurn (fs : FS) (r : TurnRow) : LoadedTurn :=
  { number := r.number, speaker := r.speaker, text := r.text,
    startSec := msToSec r.start_ms, endSec := msToSec r.end_ms,
    audio_b64 := b64encode ((fsRead fs r.audio_path).getD []) }

/-- SELECT ... FROM conversations WHERE id = ? (fetchone). -/
def get_conversation_by_id (db : DB) (cid : String) :
    Option (String × String × String × Rat × Int × Int × String) :=
  (db.conversations.find? (fun c => c.id == cid)).map
    (fun c => (c.id, c.filename, c.format, c.duration, c.turns, c.speakers,
      c.processed_at))

/-- Look up storage_path; when a row exists, rmtree its directory (when
present), then DELETE the turn rows and the conversation row. -/
def delete_conversation (s : AppState) (cid : String) : AppState :=
  match s.db.conversations.find? (fun c => c.id == cid) with
  | none => s
  | some row =>
      let fs1 := if [row.storage_path] ∈ s.fs.dirs
        then fsRmTree s.fs [row.storage_path] else s.fs
      { db := { conversations := s.db.conversations.filter (fun c => !(c.id == cid)),
                turns := s.db.turns.filter (fun t => !(t.conversation_id == cid)) },
        fs := fs1 }

/-! ### Segmentation pipeline (process_audio in the source) -/

/-- An utterance as the transcription collaborator returns it; the field
stop embeds utterance.end, because end is a Lean keyword. -/
structure Utterance where
  speaker : String
  text : String
  start : Int
  stop : Int
deriving DecidableEq

/-- The dict built for each kept utterance; audio_path is filled in later
by save_audio_files. -/
structure TurnData where
  number : Nat
  speaker : String
  text : String
  startSec : Rat
  endSec : Rat
  start_ms : Int
  end_ms : Int
  audio_b64 : List Nat
  audio_path : DirPath := []
deriving DecidableEq

/-- The loop body of the pipeline, carrying the enumerate index, which
starts at 1 and advances on every utterance, skipped or kept. -/
def processUttsFrom (audioLen : Int) (exportSeg : Int → Int → Bytes) :
    Nat → List Utterance → List TurnData
  | _, [] => []
  | idx, u :: rest =>
      let s := max 0 u.start
      let e := min audioLen u.stop
      if e ≤ s then processUttsFrom audioLen exportSeg (idx + 1) rest
      else
        { number := idx, speaker := u.speaker, text := u.text,
          startSec := msToSec u.start, endSec := msToSec u.stop,
          start_ms := s, end_ms := e,
          audio_b64 := b64encode (exportSeg s e) } ::
          processUttsFrom audioLen exportSeg (idx + 1) rest

/-- The pipeline: clamp, skip degenerate utterances, slice and encode.
audioLen embeds len(audio); exportSeg embeds the pydub slice-and-export
collaborator, returning the encoded bytes for a clamped range. -/
def process_audio_turns (audioLen : Int) (exportSeg : Int → Int → Bytes)
    (utts : List Utterance) : List TurnData :=
  processUttsFrom audioLen exportSeg 1 utts

/-! ### Blob persistence (save_audio_files) and the upload flow -/

/-- The segment-writing loop: write each decoded blob and record its
relative path on the turn dict. -/
def saveSegmentsFrom (convId fmt : String) : FS → List TurnData → FS × List TurnData
  | fs, [] => (fs, [])
  | fs, t :: rest =>
      let p : DirPath := [convId, "segments", segFilename t.speaker t.number fmt]
      let fs1 := fsWrite fs p (b64decode t.audio_b64)
      let res := saveSegmentsFrom convId fmt fs1 rest
      (res.1, { t with audio_path := p } :: res.2)

/-- The segment path save_audio_files derives for a turn. -/
def segPath (convId fmt : String) (t : TurnData) : DirPath :=
  [convId, "segments", segFilename t.speaker t.number fmt]

/-- Create the conversation directory and segments subdirectory, write the
original blob, then write every segment blob. -/
def save_audio_files (fs : FS) (convId : String) (origBytes : Bytes)
    (fmt : String) (turnsData : List TurnData) : FS × List TurnData :=
  let fs1 := fsMkdir fs [convId]
  let fs2 := fsMkdir fs1 [convId, "segments"]
  let fs3 := fsWrite fs2 [convId, "original." ++ fmt] origBytes
  saveSegmentsFrom convId fmt fs3 turnsData

/-- duration = turns[-1] end if turns else 0 (the raw collaborator end in
seconds, not the clamped end_ms). -/
def durationOf (ts : List TurnData) : Rat :=
  match ts.getLast? with
  | some t => t.endSec
  | none => 0

/-- The row save_turn receives for one pipeline turn dict. -/
def turnRowOf (convId tid : String) (t : TurnData) : TurnRow :=
  { id := tid, conversation_id := convId, number := (t.number : Int),
    speaker := t.speaker, text := t.text, start_ms := t.start_ms,
    end_ms := t.end_ms, audio_path := t.audio_path }

/-- The rows the turn-saving loop generates, with their fresh ids. -/
def rowsFrom (convId : String) (tids : Nat → String) : Nat → List TurnData → List TurnRow
  | _, [] => []
  | i, t :: rest => turnRowOf convId (tids i) t :: rowsFrom convId tids (i + 1) rest

/-- The per-turn INSERT loop; each INSERT commits on its own, so an error
keeps the rows inserted so far. tids supplies the fresh uuid4 ids. -/
def saveTurnsFrom (convId : String) (tids : Nat → String) :
    DB → Nat → List TurnData → Option DBError × DB
  | db, _, [] => (none, db)
  | db, i, t :: rest =>
      match save_turn db (turnRowOf convId (tids i) t) with
      | .error e => (some e, db)
      | .ok db1 => saveTurnsFrom convId tids db1 (i + 1) rest

/-- The conversation row built by the upload flow: fingerprint is the sha
of the uploaded bytes, duration comes from the last turn dict, turns is
len(turns), and storage_path equals the conversation id. -/
def convRowOf (sha : Bytes → String) (origBytes : Bytes) (filename fmt : String)
    (speakers : Int) (convId now : String) (turnsData : List TurnData) : ConvRow :=
  { id := convId, fingerprint := sha origBytes, filename := filename,
    format := fmt, duration := durationOf turnsData, speakers := speakers,
    turns := (turnsData.length : Int), processed_at := now,
    storage_path := convId, last_viewed := now }

/-- The persistence part of the upload page: when the pipeline produced
turns, compute duration, write the blobs, insert the conversation row,
then insert the turn rows. A constraint error keeps the database unchanged
but the blobs already written remain. -/
def uploadSave (st : AppState) (sha : Bytes → String) (origBytes : Bytes)
    (filename fmt : String) (speakers : Int) (convId now : String)
    (tids : Nat → String) (turnsData : List TurnData) :
    Option DBError × AppState :=
  if turnsData.isEmpty then (none, st)
  else
    match save_conversation st.db
        (convRowOf sha origBytes filename fmt speakers convId now turnsData) with
    | .error e =>
        (some e,
         AppState.mk st.db (save_audio_files st.fs convId origBytes fmt turnsData).1)
    | .ok db1 =>
        ((saveTurnsFrom convId tids db1 0
            (save_audio_files st.fs convId origBytes fmt turnsData).2).1,
         AppState.mk
           (saveTurnsFrom convId tids db1 0
             (save_audio_files st.fs convId origBytes fmt turnsData).2).2
           (save_audio_files st.fs convId origBytes fmt turnsData).1)

/-- The survivors of the clamp-and-skip step, in order. -/
def survivors (audioLen : Int) (utts : List Utterance) : List Utterance :=
  utts.filter (fun u => decide (max 0 u.start < min audioLen u.stop))

/-! ### Concrete fixtures for counterexamples and witnesses -/

/-- A stand-in content hash: the claims only need determinism. -/
def cxSha : Bytes → String := fun _ => "fp1"

/-- A stand-in codec: two bytes derived from the clamped range. -/
def cxSeg : Int → Int → Bytes := fun s e => [s.toNat % 250, e.toNat % 250]

/-- Fresh turn ids for the fixtures. -/
def cxTids : Nat → String := fun i => "t" ++ toString i

/-- The empty application state. -/
def cxS0 : AppState := ⟨⟨[], []⟩, ⟨[], []⟩⟩

/-- An utterance list whose middle element has end = start at 5000 ms. -/
def cxUtts : List Utterance :=
  [⟨"A", "hi", 0, 4000⟩, ⟨"A", "x", 5000, 5000⟩, ⟨"B", "yo", 6000, 9000⟩]

/-- Pipeline output for cxUtts on a 10000 ms file. -/
def cxTurns : List TurnData := process_audio_turns 10000 cxSeg cxUtts

/-- A full successful upload of cxUtts into the empty state. -/
def cxRun : Option DBError × AppState :=
  uploadSave cxS0 cxSha [1, 2, 3] "a.wav" "wav" 2 "c1" "2024" cxTids cxTurns

/-- A single utterance whose end (12000 ms) exceeds the 10000 ms file. -/
def cx5Utts : List Utterance := [⟨"A", "hi", 0, 12000⟩]

/-- Pipeline output for cx5Utts. -/
def cx5Turns : List TurnData := process_audio_turns 10000 cxSeg cx5Utts

/-- A full successful upload of cx5Utts into the empty state. -/
def cx5Run : Option DBError × AppState :=
  uploadSave cxS0 cxSha [1, 2] "b.wav" "wav" 2 "c5" "2024" cxTids cx5Turns

/-- The single conversation row of the cx7Db fixture. -/
def cx7Row : ConvRow :=
  { id := "a1", fingerprint := "f1", filename := "a.wav", format := "wav",
    duration := 9, speakers := 2, turns := 1, processed_at := "2024",
    storage_path := "a1", last_viewed := "2024" }

/-- A database holding one conversation row with id a1. -/
def cx7Db : DB := { conversations := [cx7Row], turns := [] }

/-- A second row with a fresh id but the fingerprint of cx7Row. -/
def cx3Row : ConvRow :=
  { id := "a2", fingerprint := "f1", filename := "b.wav", format := "wav",
    duration := 5, speakers := 2, turns := 1, processed_at := "2025",
    storage_path := "a2", last_viewed := "2025" }

/-- One persisted turn row belonging to conversation a1. -/
def cx6TurnRow : TurnRow :=
  { id := "t1", conversation_id := "a1", number := 1, speaker := "A",
    text := "hi", start_ms := 0, end_ms := 4000,
    audio_path := ["a1", "segments", "a_001.wav"] }

/-- A state holding conversation a1, its turn row and its blob tree. -/
def cx6S : AppState :=
  { db := { conversations := [cx7Row], turns := [cx6TurnRow] },
    fs := { files := [(["a1", "segments", "a_001.wav"], [0, 1]),
                      (["a1", "original.wav"], [1, 2])],
            dirs := [["a1"], ["a1", "segments"]] } }

/-- The first pipeline turn of cxTurns, written out explicitly. -/
def cx4T : TurnData :=
  { number := 1, speaker := "A", text := "hi", startSec := msToSec 0,
    endSec := msToSec 4000, start_ms := 0, end_ms := 4000,
    audio_b64 := b64encode (cxSeg 0 4000) }

/-- cx4T as save_audio_files returns it, with its recorded path. -/
def cx8T : TurnData :=
  { cx4T with audio_path := ["c8", "segments", "a_001.wav"] }

end AudioApp

namespace AudioApp

/-! ### General helper lemmas -/

theorem map_id_of_mem {α : Type} {f : α → α} :
    ∀ {l : List α}, (∀ x ∈ l, f x = x) → l.map f = l
  | [], _ => rfl
  | x :: xs, h => by
      simp only [List.map_cons, h x (by simp)]
      exact congrArg _ (map_id_of_mem fun y hy => h y (by simp [hy]))

/-! ### Base64 round trip -/

theorem charToSextet_sextetToChar {s : Nat} (h : s < 64) :
    charToSextet (sextetToChar s) = s := by
  revert h; revert s; decide

theorem sextetToChar_ne_padding {s : Nat} (h : s < 64) : sextetToChar s ≠ 61 := by
  revert h; revert s; decide

theorem b64packSextets_lt {bs : Bytes} (hb : ∀ b ∈ bs, b < 256) :
    ∀ x ∈ b64packSextets bs, x < 64 := by
  induction bs using b64packSextets.induct with
  | case1 => simp [b64packSextets]
  | case2 a =>
      have ha := hb a (by simp)
      simp only [b64packSextets, List.mem_cons, List.not_mem_nil, or_false]
      rintro x (rfl | rfl) <;> omega
  | case3 a b =>
      have ha := hb a (by simp)
      have hb2 := hb b (by simp)
      simp only [b64packSextets, List.mem_cons, List.not_mem_nil, or_false]
      rintro x (rfl | rfl | rfl) <;> omega
  | case4 a b c rest ih =>
      have ha := hb a (by simp)
      have hb2 := hb b (by simp)
      have hc := hb c (by simp)
      have hrest : ∀ x ∈ rest, x < 256 := fun x hx => hb x (by simp [hx])
      simp only [b64packSextets, List.mem_cons]
      rintro x (rfl | rfl | rfl | rfl | hx)
      · omega
      · omega
      · omega
      · omega
      · exact ih hrest x hx

theorem b64unpack_pack {bs : Bytes} (hb : ∀ b ∈ bs, b < 256) :
    b64unpackSextets (b64packSextets bs) = bs := by
  induction bs using b64packSextets.induct with
  | case1 => rfl
  | case2 a =>
      have ha := hb a (by simp)
      simp only [b64packSextets, b64unpackSextets]
      congr 1
      omega
  | case3 a b =>
      have ha := hb a (by simp)
      have hb2 := hb b (by simp)
      simp only [b64packSextets, b64unpackSextets]
      congr 1
      · omega
      · congr 1
        omega
  | case4 a b c rest ih =>
      have ha := hb a (by simp)
      have hb2 := hb b (by simp)
      have hc := hb c (by simp)
      have hrest : ∀ x ∈ rest, x < 256 := fun x hx => hb x (by simp [hx])
      simp only [b64packSextets, b64unpackSextets]
      refine congrArg₂ _ (by omega) ?_
      refine congrArg₂ _ (by omega) ?_
      refine congrArg₂ _ (by omega) ?_
      exact ih hrest

/-- Decoding an encoded byte string recovers it exactly. -/
theorem b64decode_encode {bs : Bytes} (hb : ∀ b ∈ bs, b < 256) :
    b64decode (b64encode bs) = bs := by
  have hlt := b64packSextets_lt hb
  have hfilter :
      (((b64packSextets bs).map sextetToChar ++ b64padding bs.length).filter
        (fun c => c ≠ 61)) = (b64packSextets bs).map sextetToChar := by
    rw [List.filter_append]
    have h1 : ((b64packSextets bs).map sextetToChar).filter (fun c => c ≠ 61)
        = (b64packSextets bs).map sextetToChar := by
      rw [List.filter_eq_self]
      intro x hx
      rcases List.mem_map.mp hx with ⟨s, hs, rfl⟩
      simpa using sextetToChar_ne_padding (hlt s hs)
    have h2 : (b64padding bs.length).filter (fun c => c ≠ 61) = [] := by
      unfold b64padding
      rcases h : bs.length % 3 with _ | _ | _ | n <;> simp
    rw [h1, h2, List.append_nil]
  have hmap : ((b64packSextets bs).map sextetToChar).map charToSextet
      = b64packSextets bs := by
    rw [List.map_map]
    apply map_id_of_mem
    intro x hx
    exact charToSextet_sextetToChar (hlt x hx)
  unfold b64decode b64encode
  rw [hfilter, hmap]
  exact b64unpack_pack hb

/-! ### Decimal rendering lemmas -/

theorem digitVal_digitChar {r : Nat} (h : r < 10) : digitVal (digitChar r) = r := by
  revert h; revert r; decide

theorem digitChar_isDigit (r : Nat) : (digitChar r).isDigit = true := by
  rcases r with _ | _ | _ | _ | _ | _ | _ | _ | _ | r <;> rfl

theorem natDigitsRevGo_digits :
    ∀ (fuel n : Nat), ∀ c ∈ natDigitsRevGo fuel n, c.isDigit = true := by
  intro fuel
  induction fuel with
  | zero =>
      intro n c hc
      cases n <;> simp [natDigitsRevGo] at hc
  | succ fuel ih =>
      intro n c hc
      cases n with
      | zero => simp [natDigitsRevGo] at hc
      | succ n =>
          simp only [natDigitsRevGo, List.mem_cons] at hc
          rcases hc with rfl | hc
          · exact digitChar_isDigit _
          · exact ih _ c hc

theorem natDigitsRev_digits (n : Nat) : ∀ c ∈ natDigitsRev n, c.isDigit = true :=
  natDigitsRevGo_digits n n

theorem natDigits_digits (n : Nat) : ∀ c ∈ natDigits n, c.isDigit = true := by
  match n with
  | 0 => simp [natDigits]
  | m + 1 =>
      intro c hc
      exact natDigitsRev_digits (m + 1) c (List.mem_reverse.mp hc)

theorem pad3_digits (n : Nat) : ∀ c ∈ pad3 n, c.isDigit = true := by
  intro c hc
  rcases List.mem_append.mp hc with h | h
  · rcases List.eq_of_mem_replicate h with rfl
    decide
  · exact natDigits_digits n c h

theorem foldr_natDigitsRevGo :
    ∀ (fuel n : Nat), n ≤ fuel →
      (natDigitsRevGo fuel n).foldr (fun c a => a * 10 + digitVal c) 0 = n := by
  intro fuel
  induction fuel with
  | zero =>
      intro n hn
      have h0 : n = 0 := by omega
      subst h0
      rfl
  | succ fuel ih =>
      intro n hn
      cases n with
      | zero => rfl
      | succ n =>
          have hdiv : (n + 1) / 10 ≤ fuel := by
            have := Nat.div_lt_self (Nat.succ_pos n) (show 1 < 10 by omega)
            omega
          have h10 : (n + 1) % 10 < 10 := Nat.mod_lt _ (by omega)
          simp only [natDigitsRevGo, List.foldr_cons, ih _ hdiv, digitVal_digitChar h10]
          omega

theorem foldr_natDigitsRev (n : Nat) :
    (natDigitsRev n).foldr (fun c a => a * 10 + digitVal c) 0 = n :=
  foldr_natDigitsRevGo n n le_rfl

theorem digitsVal_natDigits (n : Nat) : digitsVal (natDigits n) = n := by
  match n with
  | 0 => rfl
  | m + 1 =>
      show digitsVal ((natDigitsRev (m + 1)).reverse) = m + 1
      unfold digitsVal
      rw [List.foldl_reverse]
      exact foldr_natDigitsRev (m + 1)

theorem digitsVal_pad3 (n : Nat) : digitsVal (pad3 n) = n := by
  unfold pad3 digitsVal
  rw [List.foldl_append]
  have hzero : ∀ k : Nat, (List.replicate k '0').foldl
      (fun a c => a * 10 + digitVal c) 0 = 0 := by
    intro k
    induction k with
    | zero => rfl
    | succ k ih => simpa [List.replicate_succ] using ih
  rw [hzero]
  exact digitsVal_natDigits n

theorem pad3_inj {m n : Nat} (h : pad3 m = pad3 n) : m = n := by
  have := congrArg digitsVal h
  rwa [digitsVal_pad3, digitsVal_pad3] at this

theorem digit_block_split :
    ∀ (e1 e2 : List Char) {r1 r2 : List Char},
      (∀ c ∈ e1, c.isDigit = true) → (∀ c ∈ e2, c.isDigit = true) →
      e1 ++ '_' :: r1 = e2 ++ '_' :: r2 → e1 = e2
  | [], [], _, _, _, _, _ => rfl
  | [], c :: e2, _, _, _, h2, h => by
      simp only [List.nil_append, List.cons_append, List.cons.injEq] at h
      have : c.isDigit = true := h2 c (by simp)
      rw [← h.1] at this
      simp at this
  | c :: e1, [], _, _, h1, _, h => by
      simp only [List.nil_append, List.cons_append, List.cons.injEq] at h
      have : c.isDigit = true := h1 c (by simp)
      rw [h.1] at this
      simp at this
  | c :: e1, d :: e2, r1, r2, h1, h2, h => by
      simp only [List.cons_append, List.cons.injEq] at h
      have htail := digit_block_split e1 e2
        (fun x hx => h1 x (by simp [hx])) (fun x hx => h2 x (by simp [hx])) h.2
      rw [h.1, htail]

theorem pad3_as_suffix {x1 x2 : List Char} {m n : Nat}
    (h : x1 ++ '_' :: pad3 m = x2 ++ '_' :: pad3 n) : m = n := by
  have hrev := congrArg List.reverse h
  simp only [List.reverse_append, List.reverse_cons, List.append_assoc,
    List.singleton_append] at hrev
  have hsplit := digit_block_split (pad3 m).reverse (pad3 n).reverse
    (fun c hc => pad3_digits m c (List.mem_reverse.mp hc))
    (fun c hc => pad3_digits n c (List.mem_reverse.mp hc)) hrev
  exact pad3_inj (List.reverse_injective hsplit)

theorem segFilename_inj_number {sp1 sp2 fmt : String} {m n : Nat}
    (h : segFilename sp1 m fmt = segFilename sp2 n fmt) : m = n := by
  have hd := congrArg String.data h
  simp only [segFilename, String.data_append] at hd
  have e1 : ∀ (a p f : List Char),
      a ++ ['_'] ++ p ++ ['.'] ++ f = (a ++ '_' :: p) ++ '.' :: f := by
    intro a p f
    simp [List.append_assoc]
  rw [e1 (lowerStr sp1).data (pad3 m) fmt.data,
    e1 (lowerStr sp2).data (pad3 n) fmt.data] at hd
  have hcancel := List.append_cancel_right hd
  exact pad3_as_suffix hcancel

/-! ### File store lemmas -/

theorem fsRead_write_self (fs : FS) (p : DirPath) (c : Bytes) :
    fsRead (fsWrite fs p c) p = some c := by
  simp [fsRead, fsWrite, List.find?_cons_of_pos]

theorem fsRead_write_ne (fs : FS) {p q : DirPath} (c : Bytes) (h : p ≠ q) :
    fsRead (fsWrite fs q c) p = fsRead fs p := by
  unfold fsRead fsWrite
  rw [List.find?_cons_of_neg]
  simp [h.symm]

theorem fsWrite_dirs (fs : FS) (p : DirPath) (c : Bytes) :
    (fsWrite fs p c).dirs = fs.dirs := rfl

theorem fsMkdir_files (fs : FS) (p : DirPath) : (fsMkdir fs p).files = fs.files := by
  unfold fsMkdir
  split <;> rfl

theorem fsRead_mkdir (fs : FS) (p q : DirPath) :
    fsRead (fsMkdir fs q) p = fsRead fs p := by
  unfold fsRead
  rw [fsMkdir_files]

/-! ### Pipeline lemmas -/

theorem processUttsFrom_mem {L : Int} {ex : Int → Int → Bytes} :
    ∀ {i : Nat} {utts : List Utterance}, ∀ t ∈ processUttsFrom L ex i utts,
      ∃ u ∈ utts, t.start_ms = max 0 u.start ∧ t.end_ms = min L u.stop ∧
        t.start_ms < t.end_ms ∧ t.speaker = u.speaker ∧ t.endSec = msToSec u.stop ∧
        t.audio_b64 = b64encode (ex t.start_ms t.end_ms) := by
  intro i utts
  induction utts generalizing i with
  | nil => simp [processUttsFrom]
  | cons u rest ih =>
      intro t ht
      by_cases h : min L u.stop ≤ max 0 u.start
      · rw [processUttsFrom, if_pos h] at ht
        rcases ih t ht with ⟨v, hv, hrest⟩
        exact ⟨v, by simp [hv], hrest⟩
      · rw [processUttsFrom, if_neg h] at ht
        rcases List.mem_cons.mp ht with rfl | ht2
        · exact ⟨u, by simp, rfl, rfl, by simpa using not_le.mp h, rfl, rfl, rfl⟩
        · rcases ih t ht2 with ⟨v, hv, hrest⟩
          exact ⟨v, by simp [hv], hrest⟩

theorem processUttsFrom_numbers {L : Int} {ex : Int → Int → Bytes} :
    ∀ (i : Nat) (utts : List Utterance),
      (∀ t ∈ processUttsFrom L ex i utts, i ≤ t.number) ∧
      List.Pairwise (fun a b => a.number < b.number) (processUttsFrom L ex i utts) := by
  intro i utts
  induction utts generalizing i with
  | nil => simp [processUttsFrom]
  | cons u rest ih =>
      by_cases h : min L u.stop ≤ max 0 u.start
      · rw [processUttsFrom, if_pos h]
        refine ⟨fun t ht => ?_, (ih (i + 1)).2⟩
        have := (ih (i + 1)).1 t ht
        omega
      · rw [processUttsFrom, if_neg h]
        constructor
        · intro t ht
          rcases List.mem_cons.mp ht with rfl | ht2
          · simp
          · have := (ih (i + 1)).1 t ht2
            omega
        · refine List.Pairwise.cons (fun t ht => ?_) (ih (i + 1)).2
          have := (ih (i + 1)).1 t ht
          simp only []
          omega

theorem processUttsFrom_map_endSec {L : Int} {ex : Int → Int → Bytes} :
    ∀ (i : Nat) (utts : List Utterance),
      (processUttsFrom L ex i utts).map (fun t => t.endSec)
        = (survivors L utts).map (fun u => msToSec u.stop) := by
  intro i utts
  induction utts generalizing i with
  | nil => simp [processUttsFrom, survivors]
  | cons u rest ih =>
      by_cases h : min L u.stop ≤ max 0 u.start
      · rw [processUttsFrom, if_pos h, ih (i + 1)]
        unfold survivors
        rw [List.filter_cons_of_neg (by simp only [decide_eq_true_eq, not_lt]; exact h)]
      · rw [processUttsFrom, if_neg h]
        unfold survivors
        rw [List.filter_cons_of_pos (by simp only [decide_eq_true_eq]; exact not_le.mp h)]
        rw [List.map_cons, List.map_cons]
        exact congrArg₂ _ rfl (ih (i + 1))

/-! ### Database operation lemmas -/

theorem save_conversation_ok {db : DB} {row : ConvRow} {db2 : DB}
    (h : save_conversation db row = .ok db2) :
    db2.conversations = db.conversations ++ [row] ∧ db2.turns = db.turns ∧
    ∀ c ∈ db.conversations, c.id ≠ row.id ∧ c.fingerprint ≠ row.fingerprint := by
  unfold save_conversation at h
  split at h
  · cases h
  · rename_i hany
    cases h
    refine ⟨rfl, rfl, fun c hc => ?_⟩
    have := (List.any_eq_false).mp (Bool.eq_false_iff.mpr hany) c hc
    simp only [Bool.or_eq_true, beq_iff_eq, not_or] at this
    exact this

theorem save_conversation_dup {db : DB} {row : ConvRow} (c : ConvRow)
    (hc : c ∈ db.conversations) (hfp : c.fingerprint = row.fingerprint) :
    save_conversation db row = .error .constraintViolation := by
  unfold save_conversation
  have hany : db.conversations.any
      (fun c => c.id == row.id || c.fingerprint == row.fingerprint) = true :=
    List.any_eq_true.mpr ⟨c, hc, by simp [hfp]⟩
  rw [if_pos hany]

theorem save_turn_ok {db : DB} {row : TurnRow} {db1 : DB}
    (h : save_turn db row = .ok db1) :
    db1.conversations = db.conversations ∧ db1.turns = db.turns ++ [row] := by
  unfold save_turn at h
  split at h
  · cases h
  · cases h
    exact ⟨rfl, rfl⟩

theorem saveTurnsFrom_ok {convId : String} {tids : Nat → String} :
    ∀ {ts : List TurnData} {db : DB} {i : Nat} {db' : DB},
      saveTurnsFrom convId tids db i ts = (none, db') →
      db'.conversations = db.conversations ∧
      db'.turns = db.turns ++ rowsFrom convId tids i ts := by
  intro ts
  induction ts with
  | nil =>
      intro db i db' h
      cases h
      simp [rowsFrom]
  | cons t rest ih =>
      intro db i db' h
      rw [saveTurnsFrom] at h
      split at h
      · cases h
      · rename_i db1 hok
        rcases ih h with ⟨hconv, hturns⟩
        rcases save_turn_ok hok with ⟨hc1, ht1⟩
        refine ⟨hconv.trans hc1, ?_⟩
        rw [hturns, ht1, rowsFrom, List.append_assoc, List.singleton_append]

/-! ### Blob persistence lemmas -/

theorem segPath_inj_number {convId fmt : String} {t t' : TurnData}
    (h : segPath convId fmt t = segPath convId fmt t') : t.number = t'.number := by
  unfold segPath at h
  simp only [List.cons.injEq, and_true] at h
  exact segFilename_inj_number h.2.2

theorem saveSegmentsFrom_snd (convId fmt : String) :
    ∀ (fs : FS) (ts : List TurnData),
      (saveSegmentsFrom convId fmt fs ts).2
        = ts.map (fun t => { t with audio_path := segPath convId fmt t }) := by
  intro fs ts
  induction ts generalizing fs with
  | nil => rfl
  | cons t rest ih => simp [saveSegmentsFrom, segPath, ih]

theorem saveSegmentsFrom_dirs (convId fmt : String) :
    ∀ (fs : FS) (ts : List TurnData),
      (saveSegmentsFrom convId fmt fs ts).1.dirs = fs.dirs := by
  intro fs ts
  induction ts generalizing fs with
  | nil => rfl
  | cons t rest ih => simp [saveSegmentsFrom, ih, fsWrite_dirs]

theorem saveSegmentsFrom_read_other (convId fmt : String) :
    ∀ (fs : FS) (ts : List TurnData) (p : DirPath),
      (∀ t ∈ ts, p ≠ segPath convId fmt t) →
      fsRead (saveSegmentsFrom convId fmt fs ts).1 p = fsRead fs p := by
  intro fs ts
  induction ts generalizing fs with
  | nil => intro p _; rfl
  | cons t rest ih =>
      intro p hp
      have hstep : (saveSegmentsFrom convId fmt fs (t :: rest)).1
          = (saveSegmentsFrom convId fmt
              (fsWrite fs (segPath convId fmt t) (b64decode t.audio_b64)) rest).1 := rfl
      rw [hstep, ih _ p (fun t' ht' => hp t' (by simp [ht']))]
      exact fsRead_write_ne fs _ (hp t (by simp))

theorem saveSegmentsFrom_read_own (convId fmt : String) :
    ∀ (fs : FS) (ts : List TurnData),
      List.Pairwise (fun a b => a.number ≠ b.number) ts →
      ∀ t ∈ ts, fsRead (saveSegmentsFrom convId fmt fs ts).1 (segPath convId fmt t)
        = some (b64decode t.audio_b64) := by
  intro fs ts
  induction ts generalizing fs with
  | nil => simp
  | cons t rest ih =>
      intro hpw t' ht'
      rcases List.mem_cons.mp ht' with rfl | hmem
      · have hother : ∀ u ∈ rest, segPath convId fmt t' ≠ segPath convId fmt u := by
          intro u hu heq
          exact (List.pairwise_cons.mp hpw).1 u hu (segPath_inj_number heq)
        have hro := saveSegmentsFrom_read_other convId fmt
          (fsWrite fs (segPath convId fmt t') (b64decode t'.audio_b64))
          rest (segPath convId fmt t') hother
        have hstep : (saveSegmentsFrom convId fmt fs (t' :: rest)).1
            = (saveSegmentsFrom convId fmt
                (fsWrite fs (segPath convId fmt t') (b64decode t'.audio_b64)) rest).1 := rfl
        rw [hstep, hro]
        exact fsRead_write_self fs _ _
      · have hstep : (saveSegmentsFrom convId fmt fs (t :: rest)).1
            = (saveSegmentsFrom convId fmt
                (fsWrite fs (segPath convId fmt t) (b64decode t.audio_b64)) rest).1 := rfl
        rw [hstep]
        exact ih _ (List.pairwise_cons.mp hpw).2 t' hmem

/-! ### Loading lemmas -/

theorem pairwise_filterMap_of {α β : Type} {R : α → α → Prop} {S : β → β → Prop}
    (f : α → Option β)
    (hf : ∀ a a', R a a' → ∀ b, f a = some b → ∀ b', f a' = some b' → S b b') :
    ∀ {l : List α}, List.Pairwise R l → List.Pairwise S (l.filterMap f) := by
  intro l
  induction l with
  | nil => intro _; simp
  | cons a l ih =>
      intro hpw
      rcases List.pairwise_cons.mp hpw with ⟨hhead, htail⟩
      rw [List.filterMap_cons]
      cases hfa : f a with
      | none => exact ih htail
      | some b =>
          refine List.Pairwise.cons (fun b' hb' => ?_) (ih htail)
          rcases List.mem_filterMap.mp hb' with ⟨a', ha', hfa'⟩
          exact hf a a' (hhead a' ha') b hfa b' hfa'

theorem filterMap_loadRow_eq (fs : FS) :
    ∀ (rows : List TurnRow),
      rows.filterMap (loadRow fs)
        = (rows.filter (fun r => (fsRead fs r.audio_path).isSome)).map
            (renderTurn fs) := by
  intro rows
  induction rows with
  | nil => rfl
  | cons r rest ih =>
      rw [List.filterMap_cons]
      cases hr : fsRead fs r.audio_path with
      | none =>
          rw [loadRow, hr]
          rw [List.filter_cons_of_neg (by simp [hr])]
          exact ih
      | some c =>
          rw [loadRow, hr]
          rw [List.filter_cons_of_pos (by simp [hr]), List.map_cons, ← ih]
          simp [renderTurn, hr]

theorem loadRow_number {fs : FS} {r : TurnRow} {t : LoadedTurn}
    (h : loadRow fs r = some t) : t.number = r.number := by
  unfold loadRow at h
  split at h
  · cases h
  · cases h
    rfl

/-! ### Upload flow lemmas -/

theorem rowsFrom_mem {convId : String} {tids : Nat → String} :
    ∀ {i : Nat} {ts : List TurnData}, ∀ r ∈ rowsFrom convId tids i ts,
      r.conversation_id = convId ∧ ∃ t ∈ ts, r.number = (t.number : Int) ∧
        r.start_ms = t.start_ms ∧ r.end_ms = t.end_ms ∧
        r.audio_path = t.audio_path := by
  intro i ts
  induction ts generalizing i with
  | nil => simp [rowsFrom]
  | cons t rest ih =>
      intro r hr
      rcases List.mem_cons.mp hr with rfl | hr2
      · exact ⟨rfl, t, by simp, rfl, rfl, rfl, rfl⟩
      · rcases ih r hr2 with ⟨hc, u, hu, hrest⟩
        exact ⟨hc, u, by simp [hu], hrest⟩

theorem rowsFrom_map_number {convId : String} {tids : Nat → String} :
    ∀ (i : Nat) (ts : List TurnData),
      (rowsFrom convId tids i ts).map (fun r => r.number)
        = ts.map (fun t => (t.number : Int)) := by
  intro i ts
  induction ts generalizing i with
  | nil => rfl
  | cons t rest ih => simp [rowsFrom, turnRowOf, ih]

theorem saveTurnsFrom_turns_mem {convId : String} {tids : Nat → String} :
    ∀ {ts : List TurnData} {db : DB} {i : Nat},
      ∀ r ∈ (saveTurnsFrom convId tids db i ts).2.turns,
        r ∈ db.turns ∨ ∃ j t, t ∈ ts ∧ r = turnRowOf convId (tids j) t := by
  intro ts
  induction ts with
  | nil => intro db i r hr; exact Or.inl hr
  | cons t rest ih =>
      intro db i r hr
      rw [saveTurnsFrom] at hr
      split at hr
      · exact Or.inl hr
      · rename_i db1 hok
        rcases ih r hr with hin | ⟨j, u, hu, rfl⟩
        · rw [(save_turn_ok hok).2] at hin
          rcases List.mem_append.mp hin with h1 | h2
          · exact Or.inl h1
          · rcases List.mem_singleton.mp h2 with rfl
            exact Or.inr ⟨i, t, by simp, rfl⟩
        · exact Or.inr ⟨j, u, by simp [hu], rfl⟩

theorem durationOf_eq (ts : List TurnData) :
    durationOf ts = ((ts.getLast?).map (fun t => t.endSec)).getD 0 := by
  unfold durationOf
  cases ts.getLast? <;> rfl

theorem uploadSave_empty {st : AppState} {sha : Bytes → String} {ob : Bytes}
    {fn fmt : String} {sp : Int} {cid now : String} {tids : Nat → String}
    {td : List TurnData} (hemp : td.isEmpty = true) :
    uploadSave st sha ob fn fmt sp cid now tids td = (none, st) := by
  unfold uploadSave
  rw [if_pos hemp]

theorem uploadSave_ok {st : AppState} {sha : Bytes → String} {ob : Bytes}
    {fn fmt : String} {sp : Int} {cid now : String} {tids : Nat → String}
    {td : List TurnData} {s1 : AppState} (hne : td.isEmpty = false)
    (h : uploadSave st sha ob fn fmt sp cid now tids td = (none, s1)) :
    s1.db.conversations
      = st.db.conversations ++ [convRowOf sha ob fn fmt sp cid now td] ∧
    s1.db.turns
      = st.db.turns ++ rowsFrom cid tids 0 (save_audio_files st.fs cid ob fmt td).2 ∧
    s1.fs = (save_audio_files st.fs cid ob fmt td).1 ∧
    ∀ c ∈ st.db.conversations, c.fingerprint ≠ sha ob := by
  unfold uploadSave at h
  rw [hne] at h
  simp only [Bool.false_eq_true, if_false] at h
  split at h
  · simp at h
  · rename_i db1 hok
    rw [Prod.mk.injEq] at h
    obtain ⟨h1, h2⟩ := h
    have hfull : saveTurnsFrom cid tids db1 0 (save_audio_files st.fs cid ob fmt td).2
        = (none, (saveTurnsFrom cid tids db1 0 (save_audio_files st.fs cid ob fmt td).2).2) := by
      rw [← h1]
    rcases saveTurnsFrom_ok hfull with ⟨hconv, hturns⟩
    rcases save_conversation_ok hok with ⟨hc, ht, hfresh⟩
    rw [← h2]
    refine ⟨?_, ?_, rfl, fun c hc2 => (hfresh c hc2).2⟩
    · show (saveTurnsFrom cid tids db1 0 (save_audio_files st.fs cid ob fmt td).2).2.conversations = _
      rw [hconv, hc]
    · show (saveTurnsFrom cid tids db1 0 (save_audio_files st.fs cid ob fmt td).2).2.turns = _
      rw [hturns, ht]

theorem save_audio_files_snd (fs : FS) (convId : String) (ob : Bytes)
    (fmt : String) (td : List TurnData) :
    (save_audio_files fs convId ob fmt td).2
      = td.map (fun t => { t with audio_path := segPath convId fmt t }) := by
  unfold save_audio_files
  exact saveSegmentsFrom_snd convId fmt _ td

/-! ### Claim theorems -/

/-- C3: save_conversation fails with a ConstraintViolation whenever the
store already holds a conversation with the same fingerprint, and a
successful create preserves pairwise-distinct fingerprints: the storage
layer enforces the uniqueness invariant itself. -/
theorem claim_C3_storage_constraint (db : DB) (row : ConvRow) :
    ((∃ c ∈ db.conversations, c.fingerprint = row.fingerprint) →
      save_conversation db row = .error .constraintViolation) ∧
    (∀ db2, save_conversation db row = .ok db2 →
      db.conversations.Pairwise (fun a b => a.fingerprint ≠ b.fingerprint) →
      db2.conversations.Pairwise (fun a b => a.fingerprint ≠ b.fingerprint)) := by
  constructor
  · rintro ⟨c, hc, hfp⟩
    exact save_conversation_dup c hc hfp
  · intro db2 hok hpw
    rcases save_conversation_ok hok with ⟨hconv, _, hfresh⟩
    rw [hconv, List.pairwise_append]
    refine ⟨hpw, by simp, fun a ha b hb => ?_⟩
    rcases List.mem_singleton.mp hb with rfl
    exact (hfresh a ha).2

/-- C3 witness: inserting cx3Row, which reuses the fingerprint f1 already
held by cx7Row, is rejected by the store. -/
theorem claim_C3_storage_constraint_witness :
    save_conversation cx7Db cx3Row = .error .constraintViolation :=
  (claim_C3_storage_constraint cx7Db cx3Row).1 ⟨cx7Row, by decide, by decide⟩

/-- C9: delete_conversation on an id with no conversation row is a complete
no-op: database and blob tree are returned unchanged. -/
theorem claim_C9_delete_absent_noop (s : AppState) (cid : String)
    (h : ∀ c ∈ s.db.conversations, c.id ≠ cid) :
    delete_conversation s cid = s := by
  unfold delete_conversation
  have hf : s.db.conversations.find? (fun c => c.id == cid) = none :=
    List.find?_eq_none.mpr (fun c hc => by simp [h c hc])
  rw [hf]

/-- C9 witness: deleting the absent id zzz from the cx6S state changes
nothing. -/
theorem claim_C9_delete_absent_noop_witness :
    delete_conversation cx6S "zzz" = cx6S :=
  claim_C9_delete_absent_noop cx6S "zzz" (by decide)

/-- C7 counterexample: update_last_viewed on the absent id b1 returns the
ordinary success outcome with the database unchanged — there is no outcome
distinct from a successful update signalling that the id does not exist. -/
theorem claim_C7_counterexample :
    update_last_viewed cx7Db "b1" "2025" = Except.ok cx7Db := by rfl

/-- C7 amended: update_last_viewed on an absent id succeeds silently as a
no-op rather than signalling; on any database it succeeds and changes at
most the last_viewed field of the rows whose id matches. -/
theorem claim_C7_touch_last_viewed (db : DB) (cid newTime : String) :
    ((∀ c ∈ db.conversations, c.id ≠ cid) →
      update_last_viewed db cid newTime = Except.ok db) ∧
    (∃ db2, update_last_viewed db cid newTime = Except.ok db2 ∧
      List.Forall₂ (fun c c2 => c2.id = c.id ∧ c2.fingerprint = c.fingerprint ∧
          c2.filename = c.filename ∧ c2.format = c.format ∧
          c2.duration = c.duration ∧ c2.speakers = c.speakers ∧
          c2.turns = c.turns ∧ c2.processed_at = c.processed_at ∧
          c2.storage_path = c.storage_path ∧
          (c.id ≠ cid → c2.last_viewed = c.last_viewed) ∧
          (c.id = cid → c2.last_viewed = newTime))
        db.conversations db2.conversations) := by
  constructor
  · intro h
    have hmap : db.conversations.map (fun c =>
        if c.id == cid then { c with last_viewed := newTime } else c)
        = db.conversations :=
      map_id_of_mem (fun c hc => by simp [h c hc])
    unfold update_last_viewed
    rw [hmap]
  · refine ⟨_, rfl, ?_⟩
    rw [List.forall₂_map_right_iff, List.forall₂_same]
    intro c _
    by_cases hcid : c.id = cid <;> simp [hcid]

/-- C7 witness: the amended no-op clause applied to the concrete database
cx7Db at the absent id b1. -/
theorem claim_C7_touch_last_viewed_witness :
    update_last_viewed cx7Db "b1" "2026" = Except.ok cx7Db :=
  (claim_C7_touch_last_viewed cx7Db "b1" "2026").1 (by decide)

/-- C4: every turn the pipeline keeps has start_ms clamped to
max(0, start) and end_ms clamped to min(len, end), with degenerate ranges
skipped rather than failing, so 0 ≤ start_ms < end_ms ≤ len holds for the
kept turns and for every turn row the upload flow persists. -/
theorem claim_C4_clamp_bounds (L : Int) (ex : Int → Int → Bytes)
    (utts : List Utterance) :
    (∀ t ∈ process_audio_turns L ex utts,
      (∃ u ∈ utts, t.start_ms = max 0 u.start ∧ t.end_ms = min L u.stop) ∧
      0 ≤ t.start_ms ∧ t.start_ms < t.end_ms ∧ t.end_ms ≤ L) ∧
    (∀ (st : AppState) (sha : Bytes → String) (ob : Bytes) (fn fmt : String)
        (sp : Int) (cid now : String) (tids : Nat → String)
        (err? : Option DBError) (s1 : AppState),
      uploadSave st sha ob fn fmt sp cid now tids (process_audio_turns L ex utts)
        = (err?, s1) →
      ∀ r ∈ s1.db.turns, r ∉ st.db.turns →
        0 ≤ r.start_ms ∧ r.start_ms < r.end_ms ∧ r.end_ms ≤ L) := by
  have hpart1 : ∀ t ∈ process_audio_turns L ex utts,
      (∃ u ∈ utts, t.start_ms = max 0 u.start ∧ t.end_ms = min L u.stop) ∧
      0 ≤ t.start_ms ∧ t.start_ms < t.end_ms ∧ t.end_ms ≤ L := by
    intro t ht
    rcases processUttsFrom_mem t ht with ⟨u, hu, hs, he, hlt, _⟩
    refine ⟨⟨u, hu, hs, he⟩, ?_, hlt, ?_⟩
    · rw [hs]
      exact le_max_left 0 u.start
    · rw [he]
      exact min_le_left L u.stop
  refine ⟨hpart1, ?_⟩
  intro st sha ob fn fmt sp cid now tids err? s1 h r hr hnot
  unfold uploadSave at h
  by_cases hemp : (process_audio_turns L ex utts).isEmpty
  · rw [if_pos hemp, Prod.mk.injEq] at h
    rw [← h.2] at hr
    exact absurd hr hnot
  · rw [if_neg hemp] at h
    split at h
    · rw [Prod.mk.injEq] at h
      rw [← h.2] at hr
      exact absurd hr hnot
    · rename_i db1 hok
      rw [Prod.mk.injEq] at h
      rw [← h.2] at hr
      rcases saveTurnsFrom_turns_mem r hr with hin | ⟨j, t, htmem, rfl⟩
      · rw [(save_conversation_ok hok).2.1] at hin
        exact absurd hin hnot
      · rw [save_audio_files_snd] at htmem
        rcases List.mem_map.mp htmem with ⟨t0, ht0, rfl⟩
        have hb := hpart1 t0 ht0
        exact ⟨hb.2.1, hb.2.2.1, hb.2.2.2⟩

/-- C4 witness: the first kept turn of the cxUtts scenario satisfies the
clamping equations and the bounds on a 10000 ms file. -/
theorem claim_C4_clamp_bounds_witness :
    (∃ u ∈ cxUtts, cx4T.start_ms = max 0 u.start ∧ cx4T.end_ms = min 10000 u.stop) ∧
    0 ≤ cx4T.start_ms ∧ cx4T.start_ms < cx4T.end_ms ∧ cx4T.end_ms ≤ 10000 :=
  (claim_C4_clamp_bounds 10000 cxSeg cxUtts).1 cx4T (by decide)

/-- C10: load_conversation_turns returns entries ordered by ascending turn
number, and the entries are exactly the conversation turn rows whose
referenced segment file exists on disk; a row with a missing file is
silently omitted rather than raising. -/
theorem claim_C10_load_filters (s : AppState) (cid : String) :
    List.Pairwise (fun a b => a.number ≤ b.number) (load_conversation_turns s cid) ∧
    (load_conversation_turns s cid).Perm
      ((s.db.turns.filter (fun r => r.conversation_id == cid
          && (fsRead s.fs r.audio_path).isSome)).map (renderTurn s.fs)) := by
  constructor
  · unfold load_conversation_turns
    refine pairwise_filterMap_of (loadRow s.fs) ?_ (List.sorted_insertionSort byNumber _)
    intro a a' hR b hb b' hb'
    rw [loadRow_number hb, loadRow_number hb']
    exact hR
  · unfold load_conversation_turns
    refine (List.Perm.filterMap (loadRow s.fs)
      (List.perm_insertionSort byNumber _)).trans ?_
    rw [filterMap_loadRow_eq, List.filter_filter]
    have hcomm : ∀ r ∈ s.db.turns,
        ((fsRead s.fs r.audio_path).isSome && (r.conversation_id == cid))
          = ((r.conversation_id == cid) && (fsRead s.fs r.audio_path).isSome) :=
      fun r _ => Bool.and_comm _ _
    rw [List.filter_congr hcomm]

/-- C6: deletion is total: once a conversation row with the given id is
present (with its conventional storage_path = id), deleting it makes the id
lookup return none, the turn loading return the empty list, and removes the
conversation blob directory. -/
theorem claim_C6_delete_total (s : AppState) (cid : String) (row : ConvRow)
    (hfind : s.db.conversations.find? (fun c => c.id == cid) = some row)
    (hsp : row.storage_path = cid) :
    get_conversation_by_id (delete_conversation s cid).db cid = none ∧
    load_conversation_turns (delete_conversation s cid) cid = [] ∧
    [cid] ∉ (delete_conversation s cid).fs.dirs := by
  have hdel : delete_conversation s cid
      = AppState.mk
          (DB.mk (s.db.conversations.filter (fun c => !(c.id == cid)))
            (s.db.turns.filter (fun t => !(t.conversation_id == cid))))
          (if [row.storage_path] ∈ s.fs.dirs
            then fsRmTree s.fs [row.storage_path] else s.fs) := by
    unfold delete_conversation
    rw [hfind]
  refine ⟨?_, ?_, ?_⟩
  · rw [hdel]
    unfold get_conversation_by_id
    have hnone : (s.db.conversations.filter (fun c => !(c.id == cid))).find?
        (fun c => c.id == cid) = none := by
      refine List.find?_eq_none.mpr (fun c hc => ?_)
      have h2 := (List.mem_filter.mp hc).2
      simp only [Bool.not_eq_true'] at h2
      simp [h2]
    rw [hnone]
    rfl
  · rw [hdel]
    unfold load_conversation_turns
    have hnil : (s.db.turns.filter (fun t => !(t.conversation_id == cid))).filter
        (fun t => t.conversation_id == cid) = [] := by
      rw [List.filter_filter]
      refine List.filter_eq_nil_iff.mpr (fun t ht => ?_)
      simp
    rw [hnil]
    rfl
  · rw [hdel]
    by_cases hd : [row.storage_path] ∈ s.fs.dirs
    · rw [if_pos hd]
      intro hmem
      simp only [fsRmTree] at hmem
      have h2 := (List.mem_filter.mp hmem).2
      rw [hsp] at h2
      have h3 : ([cid] : DirPath).isPrefixOf [cid] = true := by
        simp [List.isPrefixOf]
      rw [h3] at h2
      simp at h2
    · rw [if_neg hd]
      rw [hsp] at hd
      exact hd

/-- C6 witness: deleting the concrete conversation a1 from cx6S removes its
row, its turns and its blob directory. -/
theorem claim_C6_delete_total_witness :
    get_conversation_by_id (delete_conversation cx6S "a1").db "a1" = none ∧
    load_conversation_turns (delete_conversation cx6S "a1") "a1" = [] ∧
    [("a1" : String)] ∉ (delete_conversation cx6S "a1").fs.dirs :=
  claim_C6_delete_total cx6S "a1" cx7Row (by decide) (by decide)

/-- C2: after a first successful processing of a byte string, a second
attempt on the same bytes (any filename, speakers or ids) resolves through
find_existing_conversation to the first conversation id, and no second
conversation row is ever created: the conversations table is unchanged by
any re-processing attempt. -/
theorem claim_C2_dedup (s0 : AppState) (sha : Bytes → String) (b : Bytes)
    (fn1 fmt1 : String) (sp1 : Int) (cid1 now1 : String) (tids1 : Nat → String)
    (td1 : List TurnData) (s1 : AppState)
    (h0 : find_existing_conversation s0.db (sha b) = none)
    (hne : td1.isEmpty = false)
    (h1 : uploadSave s0 sha b fn1 fmt1 sp1 cid1 now1 tids1 td1 = (none, s1)) :
    (find_existing_conversation s1.db (sha b)).map (fun r => r.1) = some cid1 ∧
    ∀ (fn2 fmt2 : String) (sp2 : Int) (cid2 now2 : String) (tids2 : Nat → String)
        (td2 : List TurnData),
      ((uploadSave s1 sha b fn2 fmt2 sp2 cid2 now2 tids2 td2).2).db.conversations
        = s1.db.conversations := by
  rcases uploadSave_ok hne h1 with ⟨hconv, _, _, _⟩
  have hfind0 : s0.db.conversations.find? (fun c => c.fingerprint == sha b) = none := by
    have h0b := h0
    unfold find_existing_conversation at h0b
    exact Option.map_eq_none'.mp h0b
  have hfind1 : s1.db.conversations.find? (fun c => c.fingerprint == sha b)
      = some (convRowOf sha b fn1 fmt1 sp1 cid1 now1 td1) := by
    rw [hconv, List.find?_append, hfind0, Option.none_or]
    rw [List.find?_cons_of_pos _ (by simp [convRowOf])]
  constructor
  · unfold find_existing_conversation
    rw [hfind1]
    rfl
  · intro fn2 fmt2 sp2 cid2 now2 tids2 td2
    by_cases hemp2 : td2.isEmpty = true
    · rw [uploadSave_empty hemp2]
    · unfold uploadSave
      rw [if_neg hemp2]
      have hdup : save_conversation s1.db
          (convRowOf sha b fn2 fmt2 sp2 cid2 now2 td2)
          = .error .constraintViolation := by
        apply save_conversation_dup (convRowOf sha b fn1 fmt1 sp1 cid1 now1 td1)
        · rw [hconv]
          exact List.mem_append_right _ (List.mem_singleton.mpr rfl)
        · rfl
      rw [hdup]

/-- C2 witness: re-checking the bytes of the cxRun upload resolves to the
first conversation id c1. -/
theorem claim_C2_dedup_witness :
    (find_existing_conversation cxRun.2.db (cxSha [1, 2, 3])).map (fun r => r.1)
      = some "c1" :=
  (claim_C2_dedup cxS0 cxSha [1, 2, 3] "a.wav" "wav" 2 "c1" "2024" cxTids cxTurns
    cxRun.2 (by decide) (by decide) (by decide)).1

/-- C5 counterexample: upload cx5Utts (one utterance ending at 12000 ms)
for a 10000 ms file: the stored duration is 12 seconds, while the final
persisted turn row ends at second 10, which is also the audio length — the
duration is taken from the raw collaborator end, not the clamped one, and
exceeds the audio length. -/
theorem claim_C5_counterexample :
    cx5Run.2.db.conversations.map (fun c => c.duration) = [12] ∧
    cx5Run.2.db.turns.map (fun r => msToSec r.end_ms) = [10] ∧
    (12 : Rat) ≠ 10 ∧ ¬ ((12 : Rat) ≤ msToSec 10000) := by decide

/-- C5 amended: the duration stored at creation is the raw collaborator end
timestamp in seconds of the final surviving utterance (turns[-1] end, the
unclamped value, which can exceed both the persisted turn end_ms and the
original audio length); when the pipeline keeps no turns nothing is
persisted, so the 0 fallback of the duration expression is never stored. -/
theorem claim_C5_duration (L : Int) (ex : Int → Int → Bytes)
    (utts : List Utterance) (st : AppState) (sha : Bytes → String) (ob : Bytes)
    (fn fmt : String) (sp : Int) (cid now : String) (tids : Nat → String)
    (s1 : AppState)
    (hne : (process_audio_turns L ex utts).isEmpty = false)
    (h1 : uploadSave st sha ob fn fmt sp cid now tids
      (process_audio_turns L ex utts) = (none, s1)) :
    ∃ c ∈ s1.db.conversations, c.id = cid ∧
      c.duration
        = (((survivors L utts).getLast?).map (fun u => msToSec u.stop)).getD 0 := by
  rcases uploadSave_ok hne h1 with ⟨hconv, -, -, -⟩
  refine ⟨convRowOf sha ob fn fmt sp cid now (process_audio_turns L ex utts),
    ?_, rfl, ?_⟩
  · rw [hconv]
    exact List.mem_append_right _ (List.mem_singleton.mpr rfl)
  · show durationOf (process_audio_turns L ex utts) = _
    rw [durationOf_eq]
    have hmap : (process_audio_turns L ex utts).map (fun t => t.endSec)
        = (survivors L utts).map (fun u => msToSec u.stop) :=
      processUttsFrom_map_endSec 1 utts
    rw [← List.getLast?_map, hmap, List.getLast?_map]

/-- C5 witness: the amended duration rule evaluated on the cx5Utts upload:
the stored duration is the raw 12 seconds of the surviving utterance. -/
theorem claim_C5_duration_witness :
    ∃ c ∈ cx5Run.2.db.conversations, c.id = "c5" ∧
      c.duration
        = (((survivors 10000 cx5Utts).getLast?).map (fun u => msToSec u.stop)).getD 0 :=
  claim_C5_duration 10000 cxSeg cx5Utts cxS0 cxSha [1, 2] "b.wav" "wav" 2 "c5"
    "2024" cxTids cx5Run.2 (by decide) (by decide)

/-- C1 counterexample: the cxUtts upload (middle utterance dropped for
end = start) loads back turn numbers 1 and 3 — strictly increasing but
gapped, not the gap-free 1, 2 enumeration the claim requires, because the
number is the pre-filter enumerate index. -/
theorem claim_C1_counterexample :
    (load_conversation_turns cxRun.2 "c1").map (fun t => t.number) = [1, 3] ∧
    (load_conversation_turns cxRun.2 "c1").map (fun t => t.number)
      ≠ (List.range (load_conversation_turns cxRun.2 "c1").length).map
          (fun i => (i : Int) + 1) := by decide

/-- C1 amended: for a conversation persisted by the upload flow, the loaded
turn numbers are strictly increasing and at least 1, but they are the
pre-filter enumerate indices, so a discarded utterance leaves a gap and the
sequence need not be the contiguous enumeration from 1. -/
theorem claim_C1_ordering (L : Int) (ex : Int → Int → Bytes)
    (utts : List Utterance) (st : AppState) (sha : Bytes → String) (ob : Bytes)
    (fn fmt : String) (sp : Int) (cid now : String) (tids : Nat → String)
    (s1 : AppState)
    (h1 : uploadSave st sha ob fn fmt sp cid now tids
      (process_audio_turns L ex utts) = (none, s1))
    (hfresh : ∀ r ∈ st.db.turns, r.conversation_id ≠ cid) :
    List.Pairwise (fun a b => a.number < b.number)
      (load_conversation_turns s1 cid) ∧
    ∀ t ∈ load_conversation_turns s1 cid, 1 ≤ t.number := by
  by_cases hemp : (process_audio_turns L ex utts).isEmpty = true
  · rw [uploadSave_empty hemp, Prod.mk.injEq] at h1
    have h2 := h1.2
    subst h2
    have hnil : st.db.turns.filter (fun t => t.conversation_id == cid) = [] :=
      List.filter_eq_nil_iff.mpr (fun t ht => by simp [hfresh t ht])
    unfold load_conversation_turns
    rw [hnil]
    simp
  · have hne : (process_audio_turns L ex utts).isEmpty = false :=
      Bool.eq_false_iff.mpr hemp
    rcases uploadSave_ok hne h1 with ⟨-, hturns, -, -⟩
    have hfilter : s1.db.turns.filter (fun t => t.conversation_id == cid)
        = rowsFrom cid tids 0
            (save_audio_files st.fs cid ob fmt (process_audio_turns L ex utts)).2 := by
      rw [hturns, List.filter_append]
      have h1f : st.db.turns.filter (fun t => t.conversation_id == cid) = [] :=
        List.filter_eq_nil_iff.mpr (fun t ht => by simp [hfresh t ht])
      have h2f : (rowsFrom cid tids 0
            (save_audio_files st.fs cid ob fmt (process_audio_turns L ex utts)).2).filter
            (fun t => t.conversation_id == cid)
          = rowsFrom cid tids 0
              (save_audio_files st.fs cid ob fmt (process_audio_turns L ex utts)).2 :=
        List.filter_eq_self.mpr (fun r hr => by simp [(rowsFrom_mem r hr).1])
      rw [h1f, h2f, List.nil_append]
    have hnums : (rowsFrom cid tids 0
          (save_audio_files st.fs cid ob fmt (process_audio_turns L ex utts)).2).map
          (fun r => r.number)
        = (process_audio_turns L ex utts).map (fun t => (t.number : Int)) := by
      rw [rowsFrom_map_number, save_audio_files_snd, List.map_map]
      rfl
    have hpw_nat : List.Pairwise (fun (a b : TurnData) => a.number < b.number)
        (process_audio_turns L ex utts) :=
      (processUttsFrom_numbers 1 utts).2
    have hge1 : ∀ t ∈ process_audio_turns L ex utts, 1 ≤ t.number :=
      (processUttsFrom_numbers 1 utts).1
    have hpwRS : List.Pairwise (fun (a b : TurnRow) => a.number < b.number)
        (rowsFrom cid tids 0
          (save_audio_files st.fs cid ob fmt (process_audio_turns L ex utts)).2) := by
      have hmapped : List.Pairwise (fun (a b : Int) => a < b)
          ((rowsFrom cid tids 0
            (save_audio_files st.fs cid ob fmt (process_audio_turns L ex utts)).2).map
            (fun r => r.number)) := by
        rw [hnums, List.pairwise_map]
        exact hpw_nat.imp (fun h => by exact_mod_cast h)
      exact (List.pairwise_map).mp hmapped
    have hge1RS : ∀ r ∈ rowsFrom cid tids 0
        (save_audio_files st.fs cid ob fmt (process_audio_turns L ex utts)).2,
        1 ≤ r.number := by
      intro r hr
      rcases rowsFrom_mem r hr with ⟨-, t, ht, hnum, -⟩
      rw [save_audio_files_snd] at ht
      rcases List.mem_map.mp ht with ⟨t0, ht0, rfl⟩
      have hb := hge1 t0 ht0
      rw [hnum]
      exact_mod_cast hb
    unfold load_conversation_turns
    rw [hfilter]
    have hsorted := List.sorted_insertionSort byNumber (rowsFrom cid tids 0
      (save_audio_files st.fs cid ob fmt (process_audio_turns L ex utts)).2)
    have hperm := List.perm_insertionSort byNumber (rowsFrom cid tids 0
      (save_audio_files st.fs cid ob fmt (process_audio_turns L ex utts)).2)
    have hne_pw : List.Pairwise (fun (a b : TurnRow) => a.number ≠ b.number)
        ((rowsFrom cid tids 0
          (save_audio_files st.fs cid ob fmt (process_audio_turns L ex utts)).2).insertionSort
          byNumber) :=
      (hperm.pairwise_iff (fun hxy => hxy.symm)).mpr (hpwRS.imp (fun h => ne_of_lt h))
    have hlt_pw : List.Pairwise (fun (a b : TurnRow) => a.number < b.number)
        ((rowsFrom cid tids 0
          (save_audio_files st.fs cid ob fmt (process_audio_turns L ex utts)).2).insertionSort
          byNumber) :=
      (hsorted.and hne_pw).imp (fun h => lt_of_le_of_ne h.1 h.2)
    constructor
    · exact pairwise_filterMap_of (loadRow s1.fs)
        (fun a a' hR b hb b' hb' => by
          rw [loadRow_number hb, loadRow_number hb']
          exact hR) hlt_pw
    · intro t ht
      rcases List.mem_filterMap.mp ht with ⟨r, hr, hload⟩
      rw [loadRow_number hload]
      exact hge1RS r (hperm.mem_iff.mp hr)

/-- C1 witness: the amended ordering statement on the concrete cxUtts
upload: loaded numbers are strictly increasing and at least 1. -/
theorem claim_C1_ordering_witness :
    List.Pairwise (fun a b => a.number < b.number)
      (load_conversation_turns cxRun.2 "c1") ∧
    ∀ t ∈ load_conversation_turns cxRun.2 "c1", 1 ≤ t.number :=
  claim_C1_ordering 10000 cxSeg cxUtts cxS0 cxSha [1, 2, 3] "a.wav" "wav" 2 "c1"
    "2024" cxTids cxRun.2 (by decide) (by decide)

theorem save_audio_files_read_seg (fs : FS) (convId : String) (ob : Bytes)
    (fmt : String) (td : List TurnData)
    (hpw : List.Pairwise (fun (a b : TurnData) => a.number ≠ b.number) td) :
    ∀ t ∈ td, fsRead (save_audio_files fs convId ob fmt td).1 (segPath convId fmt t)
      = some (b64decode t.audio_b64) := by
  unfold save_audio_files
  exact saveSegmentsFrom_read_own convId fmt _ td hpw

/-- C8: round trip: for every turn the pipeline produced, reading the
written segment blob back through the recorded audio_path yields exactly
the bytes the pipeline encoded for that turn. -/
theorem claim_C8_roundtrip (fs : FS) (cid : String) (ob : Bytes) (fmt : String)
    (L : Int) (ex : Int → Int → Bytes) (utts : List Utterance)
    (hex : ∀ x y : Int, ∀ b ∈ ex x y, b < 256) :
    ∀ t ∈ (save_audio_files fs cid ob fmt (process_audio_turns L ex utts)).2,
      fsRead (save_audio_files fs cid ob fmt (process_audio_turns L ex utts)).1
          t.audio_path = some (ex t.start_ms t.end_ms) ∧
      b64decode t.audio_b64 = ex t.start_ms t.end_ms := by
  intro t ht
  rw [save_audio_files_snd] at ht
  rcases List.mem_map.mp ht with ⟨t0, ht0, rfl⟩
  rcases processUttsFrom_mem t0 ht0 with ⟨u, -, -, -, -, -, -, hb64⟩
  have hdec : b64decode t0.audio_b64 = ex t0.start_ms t0.end_ms := by
    rw [hb64]
    exact b64decode_encode (hex _ _)
  have hpairwise : List.Pairwise (fun (a b : TurnData) => a.number ≠ b.number)
      (process_audio_turns L ex utts) :=
    ((processUttsFrom_numbers 1 utts).2).imp (fun h => Nat.ne_of_lt h)
  have hread := save_audio_files_read_seg fs cid ob fmt _ hpairwise t0 ht0
  dsimp only
  exact ⟨by rw [hread, hdec], hdec⟩

/-- C8 witness: the first turn of the cxUtts pipeline output written under
conversation c8 reads back as its encoded segment bytes. -/
theorem claim_C8_roundtrip_witness :
    fsRead (save_audio_files cxS0.fs "c8" [9] "wav"
        (process_audio_turns 10000 cxSeg cxUtts)).1 cx8T.audio_path
      = some (cxSeg cx8T.start_ms cx8T.end_ms) ∧
    b64decode cx8T.audio_b64 = cxSeg cx8T.start_ms cx8T.end_ms :=
  claim_C8_roundtrip cxS0.fs "c8" [9] "wav" 10000 cxSeg cxUtts
    (by
      intro x y b hb
      simp only [cxSeg, List.mem_cons, List.not_mem_nil, or_false] at hb
      rcases hb with rfl | rfl <;>
        exact lt_of_lt_of_le (Nat.mod_lt _ (by omega)) (by omega))
    cx8T (by decide)

end AudioApp
